import Mathlib

/-!
Verification of the booking-availability core of ocean-link-joy.

The development shallowly embeds the TypeScript source:
* `PaymentUtils` — the dedup step of `fetchServicePaymentMethods` (paymentUtils.ts).
* `ServiceAvailability` — the slot-matrix builder, the `loadWeekly` availability
  gate, the `loadSlots` effect, the selection toggle and the derived total of
  the `ServiceAvailability` component.
* `BookingAvailability` — the `isDateDisabled` gate, `toggleSlot`,
  `totalCharges` and the `loadSlots` effect of the `BookingAvailability` page.
* `DynamicPricingForm` — the `handleSubmit` validation of the pricing-rule form.

Timestamps (`start_time`, `end_time`) are modelled as `Nat` (the source stores
ISO strings and compares them through `new Date(...).getTime()`); prices are
`Int` (`Option Int` where the column is nullable); JS `Set` becomes
`Finset String`; the insertion-ordered JS `Map`/object become association
lists.
-/

/-- A weekly recurrence rule as returned by `fetchWeeklySchedule`
(`business_schedules` row: `day_of_week, is_open, open_time, close_time`),
`day_of_week` using the 1=Mon..7=Sun convention. -/
structure WeeklyScheduleRule where
  day_of_week : Nat
  is_open : Bool
  open_time : Option String
  close_time : Option String
deriving DecidableEq

namespace ServiceAvailability

/-- The disabled-days computation of the `loadWeekly` effect in the
`ServiceAvailability` component:
`openSet = rules.filter(r => r.is_open).map(r => r.day_of_week % 7)` and
`disabled = [0,1,2,3,4,5,6].filter(d => !openSet.has(d))`.
The JS `Set` is used only for membership, so a list with `contains` is an
exact model. -/
def loadWeeklyDisabled (rules : List WeeklyScheduleRule) : List Nat :=
  let openSet := (rules.filter (fun r => r.is_open)).map (fun r => r.day_of_week % 7)
  [0, 1, 2, 3, 4, 5, 6].filter (fun d => !(openSet.contains d))

end ServiceAvailability

namespace BookingAvailability

/-- The `isDateDisabled` callback of the `BookingAvailability` page.  The
source receives a `Date` and reads `date.getDay()` (0=Sun..6=Sat); we take
that `getDay` value as the input.  It converts Sunday from 0 to 7, looks up
the first matching rule and returns `!schedule.is_open`, defaulting to
`false` (not disabled) when no rule matches. -/
def isDateDisabled (weeklySchedule : List WeeklyScheduleRule) (getDay : Nat) : Bool :=
  let dayOfWeek := if getDay = 0 then 7 else getDay
  match weeklySchedule.find? (fun s => s.day_of_week == dayOfWeek) with
  | some schedule => !schedule.is_open
  | none => false

end BookingAvailability

namespace ServiceAvailability

/-- A slot row as fetched by `fetchAllSlotsForBusiness` and consumed by the
`ServiceAvailability` component (`SlotWithResource`).  `slot_price` is the
nullable numeric column. -/
structure SlotWithResource where
  id : String
  resource_id : String
  start_time : Nat
  end_time : Nat
  slot_price : Option Int
  is_booked : Bool
deriving DecidableEq

/-- One row of the displayed matrix (`SlotMatrixRow`).  `slotsByResource` is
a JS object keyed by resource id, modelled as an insertion-ordered
association list. -/
structure SlotMatrixRow where
  start_time : Nat
  end_time : Nat
  price : Option Int
  slotsByResource : List (String × SlotWithResource)
deriving DecidableEq

/-- JS object property assignment `obj[k] = v`: overwrite in place if the key
exists, otherwise append. -/
def setAssoc (m : List (String × SlotWithResource)) (k : String) (v : SlotWithResource) :
    List (String × SlotWithResource) :=
  match m with
  | [] => [(k, v)]
  | (k₀, v₀) :: rest => if k₀ = k then (k, v) :: rest else (k₀, v₀) :: setAssoc rest k v

/-- The per-slot body of the `slotMatrix` grouping loop after the entry for
the slot's key exists: `entry.slotsByResource[slot.resource_id] = slot;`
`if (entry.price === null || entry.price === undefined) entry.price =
slot.slot_price ?? null;`. -/
def updateEntry (entry : SlotMatrixRow) (slot : SlotWithResource) : SlotMatrixRow :=
  { entry with
    slotsByResource := setAssoc entry.slotsByResource slot.resource_id slot,
    price := match entry.price with
             | none => slot.slot_price
             | some p => some p }

/-- One iteration of the `slotMatrix` grouping loop over the insertion-ordered
`Map` keyed by `` `${slot.start_time}|${slot.end_time}` ``: if no entry has
the slot's key, set a fresh entry (whose initial price is
`slot.slot_price ?? null` and whose `slotsByResource` is empty), then run the
update body on the entry with the matching key. -/
def insertSlot (grouped : List SlotMatrixRow) (slot : SlotWithResource) : List SlotMatrixRow :=
  match grouped with
  | [] =>
    [updateEntry
      { start_time := slot.start_time, end_time := slot.end_time,
        price := slot.slot_price, slotsByResource := [] } slot]
  | entry :: rest =>
    if entry.start_time = slot.start_time ∧ entry.end_time = slot.end_time then
      updateEntry entry slot :: rest
    else
      entry :: insertSlot rest slot

/-- The sort comparator of the `slotMatrix` memo:
`(a, b) => new Date(a.start_time).getTime() - new Date(b.start_time).getTime()`,
i.e. ascending by `start_time`. -/
def rowLE (a b : SlotMatrixRow) : Prop := a.start_time ≤ b.start_time

instance : DecidableRel rowLE := fun a b => Nat.decLe a.start_time b.start_time

instance : IsTotal SlotMatrixRow rowLE := ⟨fun a b => Nat.le_total a.start_time b.start_time⟩

instance : IsTrans SlotMatrixRow rowLE := ⟨fun _ _ _ hab hbc => Nat.le_trans hab hbc⟩

/-- The `slotMatrix` memo of `ServiceAvailability`: group the slots with the
loop above, then sort the grouped rows ascending by `start_time`
(JS `Array.prototype.sort` is a stable sort, so the stable `insertionSort`
models it exactly). -/
def slotMatrix (slots : List SlotWithResource) : List SlotMatrixRow :=
  List.insertionSort rowLE (slots.foldl insertSlot [])

/-- The grouping key of a slot: the pair `(start_time, end_time)`. -/
def slotKey (s : SlotWithResource) : Nat × Nat := (s.start_time, s.end_time)

/-- The grouping key of a matrix row: the pair `(start_time, end_time)`. -/
def rowKey (r : SlotMatrixRow) : Nat × Nat := (r.start_time, r.end_time)

/-- Spec-side description of the row price (for the refinement claim C2):
the price of the first slot, in input iteration order, with the given key
whose price is non-null; `none` when no such slot exists. -/
def firstNonNullPriceForKey (slots : List SlotWithResource) (k : Nat × Nat) : Option Int :=
  ((slots.filter (fun s => slotKey s = k)).filterMap (fun s => s.slot_price)).head?

/-- JS `slot_price || 0` on a nullable number: `null` (and falsy `0`) give
`0`, any other value gives itself. -/
def jsOrZero (p : Option Int) : Int :=
  match p with
  | none => 0
  | some v => if v = 0 then 0 else v

/-- The `total` memo of `ServiceAvailability`:
`slots.filter(s => selected.has(s.id)).reduce((sum, s) => sum + (s.slot_price || 0), 0)`. -/
def total (slots : List SlotWithResource) (selectedSlotIds : Finset String) : Int :=
  (slots.filter (fun s => s.id ∈ selectedSlotIds)).foldl
    (fun sum s => sum + jsOrZero s.slot_price) 0

/-- Spec-side description of the total (for the refinement claim C7):
`sum(slot.price for slot in slots if slot.id in selection)` with a
missing/null price counted as 0. -/
def totalSpec (slots : List SlotWithResource) (selection : Finset String) : Int :=
  (slots.map (fun s => if s.id ∈ selection then s.slot_price.getD 0 else 0)).sum

/-- The `toggleSelect` handler of `ServiceAvailability`: no-op on a booked
slot, otherwise remove the slot id from the selection if present, insert it
if absent. -/
def toggleSelect (prev : Finset String) (slot : SlotWithResource) : Finset String :=
  if slot.is_booked then prev
  else if slot.id ∈ prev then prev.erase slot.id
  else insert slot.id prev

/-- The component state of `ServiceAvailability` touched by the `loadSlots`
effect. -/
structure SAState where
  businessId : Option String
  selectedDate : String
  loadingResources : Bool
  loadingSlots : Bool
  error : Option String
  slots : List SlotWithResource
  selectedSlotIds : Finset String
deriving DecidableEq

/-- The `loadSlots` effect body of `ServiceAvailability`, which reruns
whenever `businessId`, `selectedDate` or `loadingResources` changes.  Guard:
`if (!businessId || !selectedDate || loadingResources) return;` — the
`!selectedDate` conjunct is always false because `selectedDate` holds a
`Date` object, which is truthy.  When the guard passes the selection is
reset to empty before the fetch; `fetched` is the settled result of
`fetchAllSlotsForBusiness`. -/
def loadSlots (st : SAState) (fetched : Except String (List SlotWithResource)) : SAState :=
  if st.businessId.isNone ∨ st.loadingResources then st
  else
    let st₁ := { st with loadingSlots := true, error := none,
                         selectedSlotIds := (∅ : Finset String) }
    match fetched with
    | Except.ok data => { st₁ with slots := data, loadingSlots := false }
    | Except.error msg => { st₁ with error := some msg, loadingSlots := false }

end ServiceAvailability

namespace BookingAvailability

/-- A slot as consumed by the `BookingAvailability` page (its `Slot`
interface): here `slot_price` is non-nullable. -/
structure Slot where
  id : String
  start_time : Nat
  end_time : Nat
  slot_price : Int
  is_booked : Bool
deriving DecidableEq

/-- The `toggleSlot` handler of `BookingAvailability`: no-op when
`isBooked`, otherwise remove the id if present, insert it if absent. -/
def toggleSlot (prev : Finset String) (slotId : String) (isBooked : Bool) : Finset String :=
  if isBooked then prev
  else if slotId ∈ prev then prev.erase slotId
  else insert slotId prev

/-- The `totalCharges` derivation of `BookingAvailability`:
`slots.filter(slot => selectedSlots.has(slot.id)).reduce((sum, slot) => sum + slot.slot_price, 0)`. -/
def totalCharges (slots : List Slot) (selectedSlots : Finset String) : Int :=
  (slots.filter (fun slot => slot.id ∈ selectedSlots)).foldl
    (fun sum slot => sum + slot.slot_price) 0

/-- Spec-side description of `totalCharges` (refinement claim C7): the sum of
the prices of exactly the selected slots. -/
def totalChargesSpec (slots : List Slot) (selection : Finset String) : Int :=
  (slots.map (fun s => if s.id ∈ selection then s.slot_price else 0)).sum

/-- The component state of `BookingAvailability` touched by its `loadSlots`
function. -/
structure BAState where
  selectedResource : String
  selectedDate : String
  slots : List Slot
  selectedSlots : Finset String
  loading : Bool
deriving DecidableEq

/-- The `loadSlots` function of `BookingAvailability`.  Guard:
`if (!selectedResource || !selectedDate) return;` — `selectedResource` is a
string (falsy exactly when empty) and `selectedDate` a `Date` object, always
truthy.  On success the slots are replaced; on failure a toast is shown and
only the loading flag changes.  The selection set is not touched. -/
def loadSlots (st : BAState) (fetched : Except String (List Slot)) : BAState :=
  if st.selectedResource = "" then st
  else
    let st₁ := { st with loading := true }
    match fetched with
    | Except.ok data => { st₁ with slots := data, loading := false }
    | Except.error _ => { st₁ with loading := false }

/-- A date change on the `BookingAvailability` page: `setSelectedDate`
followed by the `[selectedDate]` effect, which calls `loadSlots`. -/
def changeDate (st : BAState) (newDate : String) (fetched : Except String (List Slot)) :
    BAState :=
  loadSlots { st with selectedDate := newDate } fetched

end BookingAvailability

namespace DynamicPricingForm

/-- The payload handed to `createPricingRule` by the pricing-rule form.  The
source applies `parseFloat` to the price field; the model keeps the raw
string, since no claim depends on the parsed value. -/
structure PricingRuleInsert where
  resource_id : String
  rule_name : String
  price_override : String
  day_of_week : List Nat
  start_time : String
  end_time : String
deriving DecidableEq

/-- Outcome of a form submission: `rejected` models the early return with the
"Please fill in all fields" toast (no network call, `createPricingRule` not
invoked); `submitted r` models invoking `createPricingRule r`. -/
inductive SubmitOutcome where
  | rejected : SubmitOutcome
  | submitted : PricingRuleInsert → SubmitOutcome
deriving DecidableEq

/-- The validation and dispatch of `handleSubmit` in `DynamicPricingForm`:
`if (!ruleName || !priceOverride || selectedDays.length === 0 || !startTime
|| !endTime) { toast.error(...); return; }` — a JS string is falsy exactly
when empty — otherwise `createPricingRule` is called with the assembled
payload. -/
def handleSubmit (resourceId ruleName priceOverride : String) (selectedDays : List Nat)
    (startTime endTime : String) : SubmitOutcome :=
  if ruleName = "" ∨ priceOverride = "" ∨ selectedDays.length = 0 ∨
      startTime = "" ∨ endTime = "" then
    SubmitOutcome.rejected
  else
    SubmitOutcome.submitted
      ⟨resourceId, ruleName, priceOverride, selectedDays, startTime, endTime⟩

end DynamicPricingForm

namespace PaymentUtils

/-- A payment-method record as selected by `fetchServicePaymentMethods`
(`method_type, account_name, account_number`, the latter two nullable). -/
structure ServicePaymentMethod where
  method_type : String
  account_name : Option String
  account_number : Option String
deriving DecidableEq

/-- The dedup key comparison of `fetchServicePaymentMethods`:
`m.method_type === method.method_type && m.account_number === method.account_number`. -/
def sameMethodKey (m a : ServicePaymentMethod) : Bool :=
  m.method_type == a.method_type && m.account_number == a.account_number

/-- The dedup step of `fetchServicePaymentMethods`:
`paymentMethods.filter((method, index, self) => index === self.findIndex(m =>
m.method_type === method.method_type && m.account_number ===
method.account_number))` — keep the element at `index` exactly when `index`
is the first index holding its `(method_type, account_number)` key. -/
def uniqueMethods (paymentMethods : List ServicePaymentMethod) : List ServicePaymentMethod :=
  (paymentMethods.enum.filter
    (fun p => paymentMethods.findIdx (fun m => sameMethodKey m p.2) == p.1)).map Prod.snd

end PaymentUtils

/-- The loop invariant of the `slotMatrix` grouping fold: after consuming the
prefix `processed`, the accumulated rows have pairwise-distinct keys, their
keys are exactly the keys occurring in `processed`, and each row's price is
the first non-null price seen for its key. -/
def MatrixInv (processed : List ServiceAvailability.SlotWithResource)
    (acc : List ServiceAvailability.SlotMatrixRow) : Prop :=
  (acc.map ServiceAvailability.rowKey).Nodup ∧
  (∀ k, k ∈ acc.map ServiceAvailability.rowKey ↔
        k ∈ processed.map ServiceAvailability.slotKey) ∧
  (∀ r ∈ acc, r.price =
    ServiceAvailability.firstNonNullPriceForKey processed (ServiceAvailability.rowKey r))

/-- Concrete slot list for witnesses: two resources sharing the 9–10 window,
the first with a null price. -/
def demoSlots : List ServiceAvailability.SlotWithResource :=
  [⟨"s1", "A", 9, 10, none, false⟩, ⟨"s2", "B", 9, 10, some 20, false⟩]

/-- The single matrix row produced by `demoSlots`. -/
def demoRow : ServiceAvailability.SlotMatrixRow :=
  ⟨9, 10, some 20,
   [("A", ⟨"s1", "A", 9, 10, none, false⟩), ("B", ⟨"s2", "B", 9, 10, some 20, false⟩)]⟩

/-- Concrete slot environment for witnesses: one free slot and one booked
slot with distinct ids. -/
def demoEnv : List ServiceAvailability.SlotWithResource :=
  [⟨"a", "A", 9, 10, some 5, false⟩, ⟨"b", "A", 10, 11, some 7, true⟩]

/-- A concrete toggle sequence drawn from `demoEnv`, attempting the booked
slot as well. -/
def demoToggles : List ServiceAvailability.SlotWithResource :=
  [⟨"a", "A", 9, 10, some 5, false⟩, ⟨"b", "A", 10, 11, some 7, true⟩,
   ⟨"a", "A", 9, 10, some 5, false⟩]

/-- The booked slot of `demoEnv`. -/
def demoBooked : ServiceAvailability.SlotWithResource := ⟨"b", "A", 10, 11, some 7, true⟩

/-- C4 counterexample: for the single rule `{day_of_week: 7, is_open: true}`
the `loadWeekly` gate leaves calendar day 0 (Sunday) out of the disabled set
and puts calendar day 6 (Saturday) in, so the disabled set is not
`{0,1,2,3,4,5}` as the claim states. -/
theorem loadWeeklyDisabled_sunday_rule_not_claimed_set :
    0 ∉ ServiceAvailability.loadWeeklyDisabled [⟨7, true, none, none⟩] ∧
    6 ∈ ServiceAvailability.loadWeeklyDisabled [⟨7, true, none, none⟩] := by
  decide

/-- C4 (amended): for the weekly schedule consisting of the single rule
`{day_of_week: 7, is_open: true}`, the `loadWeekly` gate (using
`calendar_day = source_day_of_week mod 7`) produces the disabled set
`{1,2,3,4,5,6}`, i.e. only calendar day 0 (Sunday) remains enabled. -/
theorem loadWeeklyDisabled_sunday_rule :
    ServiceAvailability.loadWeeklyDisabled [⟨7, true, none, none⟩] = [1, 2, 3, 4, 5, 6] := by
  decide

/-- C3 counterexample: the `loadWeekly` gate of `ServiceAvailability` is not
fail-open.  The empty rule set contains no rule for any day, yet every one of
the seven calendar days is disabled. -/
theorem loadWeeklyDisabled_empty_disables_everything :
    ServiceAvailability.loadWeeklyDisabled [] = [0, 1, 2, 3, 4, 5, 6] := by
  decide

/-- C3 (amended): the `isDateDisabled` gate of `BookingAvailability` is
fail-open: for every rule set and every day for which the set contains no
rule (in particular for the empty rule set), that day is not disabled. -/
theorem isDateDisabled_fail_open (rules : List WeeklyScheduleRule) (getDay : Nat)
    (h : ∀ r ∈ rules, r.day_of_week ≠ (if getDay = 0 then 7 else getDay)) :
    BookingAvailability.isDateDisabled rules getDay = false := by
  unfold BookingAvailability.isDateDisabled
  have hnone : rules.find? (fun s => s.day_of_week == (if getDay = 0 then 7 else getDay)) = none := by
    rw [List.find?_eq_none]
    intro r hr
    simpa using h r hr
  simp [hnone]

/-- Witness for C3 (amended): a rule set with a single Monday rule has no
rule for Wednesday (`getDay = 3`), and Wednesday is not disabled. -/
theorem isDateDisabled_fail_open_witness :
    (∀ r ∈ [(⟨1, false, none, none⟩ : WeeklyScheduleRule)],
      r.day_of_week ≠ (if (3 : Nat) = 0 then 7 else 3)) ∧
    BookingAvailability.isDateDisabled [⟨1, false, none, none⟩] 3 = false := by
  refine ⟨by decide, isDateDisabled_fail_open [⟨1, false, none, none⟩] 3 (by decide)⟩

/-- C5 counterexample: on the `BookingAvailability` page a date change does
not reset the selection.  Starting from a state whose selection is
`{"s1"}`, changing the active date from 2026-01-01 to 2026-01-02 (with the
new slot fetch succeeding and returning no slots) leaves the selection equal
to `{"s1"}`, which is not empty. -/
theorem changeDate_keeps_selection :
    (BookingAvailability.changeDate ⟨"r1", "2026-01-01", [], {"s1"}, false⟩
        "2026-01-02" (Except.ok [])).selectedSlots = ({"s1"} : Finset String) ∧
    ({"s1"} : Finset String) ≠ (∅ : Finset String) := by
  constructor
  · decide
  · decide

/-- C5 (amended): in the `ServiceAvailability` component, whenever the
`loadSlots` effect fires with its guard satisfied (a business id is known and
resources are not loading) — which happens whenever the business id or the
active date changes — the selection set is reset to empty afterward,
regardless of its prior contents and of whether the fetch succeeds.  The
`BookingAvailability` page performs no such reset (see the counterexample). -/
theorem loadSlots_resets_selection (st : ServiceAvailability.SAState)
    (fetched : Except String (List ServiceAvailability.SlotWithResource))
    (h : st.businessId.isSome ∧ st.loadingResources = false) :
    (ServiceAvailability.loadSlots st fetched).selectedSlotIds = (∅ : Finset String) := by
  obtain ⟨h₁, h₂⟩ := h
  obtain ⟨b, hb⟩ := Option.isSome_iff_exists.mp h₁
  cases fetched <;> simp [ServiceAvailability.loadSlots, hb, h₂]

/-- Witness for C5 (amended): a concrete state with a known business id, a
non-empty prior selection and a successful empty fetch ends with an empty
selection. -/
theorem loadSlots_resets_selection_witness :
    ((⟨some "b1", "2026-01-01", false, false, none, [], {"old"}⟩ :
        ServiceAvailability.SAState).businessId.isSome ∧
      (⟨some "b1", "2026-01-01", false, false, none, [], {"old"}⟩ :
        ServiceAvailability.SAState).loadingResources = false) ∧
    (ServiceAvailability.loadSlots
        ⟨some "b1", "2026-01-01", false, false, none, [], {"old"}⟩
        (Except.ok [])).selectedSlotIds = (∅ : Finset String) :=
  ⟨⟨by decide, by decide⟩,
   loadSlots_resets_selection _ (Except.ok []) ⟨by decide, by decide⟩⟩

/-- Folding `acc + f x` over a list starting from `c` gives `c` plus the sum
of the images. -/
theorem foldl_add_eq_sum {α : Type} (f : α → Int) :
    ∀ (l : List α) (c : Int), l.foldl (fun acc x => acc + f x) c = c + (l.map f).sum := by
  intro l
  induction l with
  | nil => intro c; simp
  | cons x xs ih =>
    intro c
    simp only [List.foldl_cons, List.map_cons, List.sum_cons, ih]
    ring

/-- Summing the images of the filtered list equals summing with the
predicate folded into an `if`. -/
theorem sum_map_filter_eq {α : Type} (p : α → Bool) (f : α → Int) :
    ∀ l : List α, ((l.filter p).map f).sum = (l.map (fun x => if p x then f x else 0)).sum := by
  intro l
  induction l with
  | nil => simp
  | cons x xs ih =>
    by_cases hx : p x <;> simp [List.filter_cons, hx, ih]

/-- JS `slot_price || 0` coincides with `Option.getD 0`. -/
theorem jsOrZero_eq_getD (p : Option Int) : ServiceAvailability.jsOrZero p = p.getD 0 := by
  cases p with
  | none => rfl
  | some v => by_cases h : v = 0 <;> simp [ServiceAvailability.jsOrZero, h]

/-- C7: for every slot list and every selection set, the derived total (in
both components) equals the sum of the prices of exactly those slots in the
list whose id is in the selection, a missing/null price counting as 0. -/
theorem total_matches_selected_sum (slots : List ServiceAvailability.SlotWithResource)
    (bslots : List BookingAvailability.Slot) (selection : Finset String) :
    ServiceAvailability.total slots selection =
      ServiceAvailability.totalSpec slots selection ∧
    BookingAvailability.totalCharges bslots selection =
      BookingAvailability.totalChargesSpec bslots selection := by
  constructor
  · unfold ServiceAvailability.total ServiceAvailability.totalSpec
    rw [show (fun (sum : Int) (s : ServiceAvailability.SlotWithResource) =>
          sum + ServiceAvailability.jsOrZero s.slot_price) =
        (fun acc s => acc + (fun t : ServiceAvailability.SlotWithResource =>
          ServiceAvailability.jsOrZero t.slot_price) s) from rfl]
    rw [foldl_add_eq_sum, sum_map_filter_eq]
    simp [jsOrZero_eq_getD]
  · unfold BookingAvailability.totalCharges BookingAvailability.totalChargesSpec
    rw [show (fun (sum : Int) (s : BookingAvailability.Slot) => sum + s.slot_price) =
        (fun acc s => acc + (fun t : BookingAvailability.Slot => t.slot_price) s) from rfl]
    rw [foldl_add_eq_sum, sum_map_filter_eq]
    simp

/-- Toggling an id in a finset twice restores the original finset. -/
theorem if_toggle_involutive (sel : Finset String) (i : String) :
    (if i ∈ (if i ∈ sel then sel.erase i else insert i sel)
     then (if i ∈ sel then sel.erase i else insert i sel).erase i
     else insert i (if i ∈ sel then sel.erase i else insert i sel)) = sel := by
  by_cases h : i ∈ sel
  · simp [h, Finset.insert_erase]
  · simp [h, Finset.erase_insert]

/-- C8: toggle is an involution on non-booked slots, in both components:
`toggle(toggle(S, slot), slot) = S` whenever `slot.is_booked = false`. -/
theorem toggle_involution (sel : Finset String)
    (slot : ServiceAvailability.SlotWithResource) (h : slot.is_booked = false) :
    ServiceAvailability.toggleSelect (ServiceAvailability.toggleSelect sel slot) slot = sel ∧
    ∀ slotId : String,
      BookingAvailability.toggleSlot
        (BookingAvailability.toggleSlot sel slotId false) slotId false = sel := by
  constructor
  · simp only [ServiceAvailability.toggleSelect, h, Bool.false_eq_true, if_false]
    exact if_toggle_involutive sel slot.id
  · intro slotId
    simp only [BookingAvailability.toggleSlot, Bool.false_eq_true, if_false]
    exact if_toggle_involutive sel slotId

/-- Witness for C8: toggling the concrete free slot twice on the selection
`{"x"}` restores it. -/
theorem toggle_involution_witness :
    (⟨"a", "A", 9, 10, some 5, false⟩ :
        ServiceAvailability.SlotWithResource).is_booked = false ∧
    (ServiceAvailability.toggleSelect
        (ServiceAvailability.toggleSelect {"x"} ⟨"a", "A", 9, 10, some 5, false⟩)
        ⟨"a", "A", 9, 10, some 5, false⟩ = {"x"} ∧
      ∀ slotId : String,
        BookingAvailability.toggleSlot
          (BookingAvailability.toggleSlot {"x"} slotId false) slotId false = {"x"}) :=
  ⟨by decide, toggle_involution {"x"} ⟨"a", "A", 9, 10, some 5, false⟩ (by decide)⟩

/-- C9: a pricing-rule form submission with any of rule name, price override,
selected days, start time or end time missing/empty is rejected before any
network call: `createPricingRule` is not invoked. -/
theorem handleSubmit_rejects_incomplete (resourceId ruleName priceOverride : String)
    (selectedDays : List Nat) (startTime endTime : String)
    (h : ruleName = "" ∨ priceOverride = "" ∨ selectedDays = [] ∨
         startTime = "" ∨ endTime = "") :
    DynamicPricingForm.handleSubmit resourceId ruleName priceOverride selectedDays
        startTime endTime = DynamicPricingForm.SubmitOutcome.rejected := by
  unfold DynamicPricingForm.handleSubmit
  rw [if_pos]
  rcases h with h | h | h | h | h <;> simp [h]

/-- Witness for C9: a submission with all days unchecked is rejected. -/
theorem handleSubmit_rejects_incomplete_witness :
    (("Weekend Premium" : String) = "" ∨ ("25" : String) = "" ∨ ([] : List Nat) = [] ∨
      ("09:00" : String) = "" ∨ ("17:00" : String) = "") ∧
    DynamicPricingForm.handleSubmit "r1" "Weekend Premium" "25" [] "09:00" "17:00" =
      DynamicPricingForm.SubmitOutcome.rejected :=
  ⟨by decide,
   handleSubmit_rejects_incomplete "r1" "Weekend Premium" "25" [] "09:00" "17:00" (by decide)⟩

/-- If the ids of an environment are pairwise distinct, a toggle sequence
drawn from the environment never inserts the id of a slot the toggles cannot
insert: an id absent from the selection and distinct from every non-booked
toggle stays absent.  Specialised below to booked slots. -/
theorem toggles_preserve_not_mem (env : List ServiceAvailability.SlotWithResource)
    (hids : (env.map (fun s => s.id)).Nodup)
    (s : ServiceAvailability.SlotWithResource) (hs : s ∈ env) (hb : s.is_booked = true) :
    ∀ (toggles : List ServiceAvailability.SlotWithResource) (sel : Finset String),
      (∀ t ∈ toggles, t ∈ env) → s.id ∉ sel →
      s.id ∉ toggles.foldl ServiceAvailability.toggleSelect sel := by
  intro toggles
  induction toggles with
  | nil => intro sel _ hsel; simpa using hsel
  | cons t ts ih =>
    intro sel htog hsel
    simp only [List.foldl_cons]
    apply ih _ (fun x hx => htog x (List.mem_cons_of_mem _ hx))
    by_cases hbt : t.is_booked
    · simpa [ServiceAvailability.toggleSelect, hbt] using hsel
    · have htenv : t ∈ env := htog t (List.mem_cons_self _ _)
      have hne : s.id ≠ t.id := by
        intro he
        exact hbt (List.inj_on_of_nodup_map hids htenv hs he.symm ▸ hb)
      rw [Bool.not_eq_true] at hbt
      simp only [ServiceAvailability.toggleSelect, hbt, Bool.false_eq_true, if_false]
      by_cases hmem : t.id ∈ sel
      · simp only [if_pos hmem, Finset.mem_erase]
        exact fun hc => hsel hc.2
      · simp only [if_neg hmem, Finset.mem_insert]
        rintro (hc | hc)
        · exact hne hc
        · exact hsel hc

/-- C6: over an environment of slots with pairwise-distinct ids, every
selection reachable from the empty selection by a sequence of toggles drawn
from the environment contains no id of a slot with `is_booked = true`; in
particular toggling a booked slot leaves any selection unchanged. -/
theorem selection_excludes_booked
    (env toggles : List ServiceAvailability.SlotWithResource)
    (hids : (env.map (fun s => s.id)).Nodup)
    (htog : ∀ t ∈ toggles, t ∈ env)
    (s : ServiceAvailability.SlotWithResource) (hs : s ∈ env) (hb : s.is_booked = true) :
    s.id ∉ toggles.foldl ServiceAvailability.toggleSelect (∅ : Finset String) ∧
    ∀ sel : Finset String, ServiceAvailability.toggleSelect sel s = sel := by
  refine ⟨toggles_preserve_not_mem env hids s hs hb toggles ∅ htog (by simp), ?_⟩
  intro sel
  simp [ServiceAvailability.toggleSelect, hb]

/-- Witness for C6: in the two-slot demo environment, toggling the free slot,
the booked slot and the free slot again never brings the booked slot's id
into the selection. -/
theorem selection_excludes_booked_witness :
    (demoEnv.map (fun s => s.id)).Nodup ∧ (∀ t ∈ demoToggles, t ∈ demoEnv) ∧
    demoBooked ∈ demoEnv ∧ demoBooked.is_booked = true ∧
    (demoBooked.id ∉ demoToggles.foldl ServiceAvailability.toggleSelect (∅ : Finset String) ∧
      ∀ sel : Finset String, ServiceAvailability.toggleSelect sel demoBooked = sel) :=
  ⟨by decide, by decide, by decide, by decide,
   selection_excludes_booked demoEnv demoToggles (by decide) (by decide) demoBooked
     (by decide) (by decide)⟩

section SlotMatrixProofs

open ServiceAvailability

/-- Updating an entry with a slot does not change the entry's key. -/
theorem rowKey_updateEntry (entry : SlotMatrixRow) (slot : SlotWithResource) :
    rowKey (updateEntry entry slot) = rowKey entry := rfl

/-- The price after an update: the existing price if non-null, else the
slot's price. -/
theorem price_updateEntry (entry : SlotMatrixRow) (slot : SlotWithResource) :
    (updateEntry entry slot).price =
      match entry.price with
      | none => slot.slot_price
      | some p => some p := rfl

/-- Inserting a slot leaves the key list unchanged when the slot's key is
already present, and appends the key otherwise. -/
theorem map_rowKey_insertSlot (m : List SlotMatrixRow) (s : SlotWithResource) :
    (insertSlot m s).map rowKey =
      if slotKey s ∈ m.map rowKey then m.map rowKey else m.map rowKey ++ [slotKey s] := by
  induction m with
  | nil => simp [insertSlot, updateEntry, rowKey, slotKey]
  | cons e rest ih =>
    by_cases hc : e.start_time = s.start_time ∧ e.end_time = s.end_time
    · have hk : rowKey e = slotKey s := by
        simp [rowKey, slotKey, hc.1, hc.2]
      simp [insertSlot, if_pos hc, rowKey_updateEntry, hk]
    · have hk : rowKey e ≠ slotKey s := by
        intro he
        exact hc ⟨congrArg Prod.fst he, congrArg Prod.snd he⟩
      simp only [insertSlot, if_neg hc, List.map_cons, ih]
      by_cases hmem : slotKey s ∈ rest.map rowKey
      · simp [hmem, List.mem_cons, hk.symm]
      · simp [hmem, List.mem_cons, hk.symm]

/-- Where a member of `insertSlot m s` comes from, assuming the keys of `m`
are pairwise distinct: an untouched entry with a different key, the updated
entry with the slot's key, or (when the key was absent) the fresh entry. -/
theorem mem_insertSlot_cases {m : List SlotMatrixRow} {s : SlotWithResource}
    {r : SlotMatrixRow} (hnd : (m.map rowKey).Nodup) (hr : r ∈ insertSlot m s) :
    (r ∈ m ∧ rowKey r ≠ slotKey s) ∨
    (∃ e ∈ m, rowKey e = slotKey s ∧ r = updateEntry e s) ∨
    (slotKey s ∉ m.map rowKey ∧
      r = updateEntry
        { start_time := s.start_time, end_time := s.end_time,
          price := s.slot_price, slotsByResource := [] } s) := by
  induction m with
  | nil =>
    right; right
    refine ⟨by simp, ?_⟩
    simpa [insertSlot] using hr
  | cons e rest ih =>
    by_cases hc : e.start_time = s.start_time ∧ e.end_time = s.end_time
    · have hk : rowKey e = slotKey s := by
        simp [rowKey, slotKey, hc.1, hc.2]
      rw [insertSlot, if_pos hc] at hr
      rcases List.mem_cons.mp hr with h | h
      · exact Or.inr (Or.inl ⟨e, List.mem_cons_self e rest, hk, h⟩)
      · left
        refine ⟨List.mem_cons_of_mem e h, ?_⟩
        intro he
        have hin : rowKey r ∈ rest.map rowKey := List.mem_map_of_mem rowKey h
        rw [he, ← hk] at hin
        exact (List.nodup_cons.mp hnd).1 hin
    · have hk : rowKey e ≠ slotKey s := by
        intro he
        exact hc ⟨congrArg Prod.fst he, congrArg Prod.snd he⟩
      rw [insertSlot, if_neg hc] at hr
      rcases List.mem_cons.mp hr with h | h
      · left
        subst h
        exact ⟨List.mem_cons_self r rest, hk⟩
      · rcases ih (List.nodup_cons.mp hnd).2 h with ⟨h1, h2⟩ | ⟨e2, he2, hk2, hr2⟩ | ⟨hnm, hr2⟩
        · exact Or.inl ⟨List.mem_cons_of_mem e h1, h2⟩
        · exact Or.inr (Or.inl ⟨e2, List.mem_cons_of_mem e he2, hk2, hr2⟩)
        · right; right
          refine ⟨?_, hr2⟩
          simp only [List.map_cons, List.mem_cons]
          rintro (hs1 | hs2)
          · exact hk hs1.symm
          · exact hnm hs2

/-- A key that occurs in no slot has no first non-null price. -/
theorem firstPrice_eq_none_of_not_mem (processed : List SlotWithResource) (k : Nat × Nat)
    (h : k ∉ processed.map slotKey) : firstNonNullPriceForKey processed k = none := by
  unfold firstNonNullPriceForKey
  have hfil : processed.filter (fun s => slotKey s = k) = [] := by
    rw [List.filter_eq_nil_iff]
    intro a ha hk
    simp only [decide_eq_true_eq] at hk
    exact h (hk ▸ List.mem_map_of_mem slotKey ha)
  rw [hfil]
  rfl

/-- Extending the consumed prefix by one slot extends the first non-null
price of a key exactly when the key had none and the new slot carries it. -/
theorem firstPrice_append_singleton (processed : List SlotWithResource)
    (s : SlotWithResource) (k : Nat × Nat) :
    firstNonNullPriceForKey (processed ++ [s]) k =
      match firstNonNullPriceForKey processed k with
      | some p => some p
      | none => if slotKey s = k then s.slot_price else none := by
  unfold firstNonNullPriceForKey
  rw [List.filter_append, List.filterMap_append, List.head?_append]
  cases hA : ((processed.filter fun s => slotKey s = k).filterMap fun s => s.slot_price).head? with
  | some p => rfl
  | none =>
    simp only [Option.none_or]
    by_cases hk : slotKey s = k
    · simp only [List.filter_cons, List.filter_nil, decide_eq_true_eq, hk, if_pos trivial]
      cases hp : s.slot_price <;> simp [hp]
    · simp only [List.filter_cons, List.filter_nil, decide_eq_true_eq, hk]
      simp

end SlotMatrixProofs

section SlotMatrixInvariant

open ServiceAvailability

/-- One step of the grouping fold preserves the matrix invariant. -/
theorem matrixInv_insertSlot {processed : List SlotWithResource}
    {acc : List SlotMatrixRow} {s : SlotWithResource}
    (h : MatrixInv processed acc) : MatrixInv (processed ++ [s]) (insertSlot acc s) := by
  obtain ⟨hnd, hmem, hprice⟩ := h
  refine ⟨?_, ?_, ?_⟩
  · rw [map_rowKey_insertSlot]
    by_cases hk : slotKey s ∈ acc.map rowKey
    · simpa [hk] using hnd
    · simp only [if_neg hk]
      rw [List.nodup_append]
      exact ⟨hnd, List.nodup_singleton _, by simpa using fun hc => hk hc⟩
  · intro k
    rw [map_rowKey_insertSlot, List.map_append]
    by_cases hk : slotKey s ∈ acc.map rowKey
    · simp only [if_pos hk]
      constructor
      · intro hka
        exact List.mem_append_left _ ((hmem k).mp hka)
      · intro hkp
        rcases List.mem_append.mp hkp with hp | hs1
        · exact (hmem k).mpr hp
        · rw [List.mem_singleton.mp hs1]
          exact hk
    · simp only [if_neg hk, List.mem_append, List.mem_singleton, List.map_singleton, hmem k]
  · intro r hr
    rcases mem_insertSlot_cases hnd hr with ⟨hrm, hne⟩ | ⟨e, he, hke, hre⟩ | ⟨hnm, hre⟩
    · rw [firstPrice_append_singleton]
      cases hfp : firstNonNullPriceForKey processed (rowKey r) with
      | some p => rw [hprice r hrm, hfp]
      | none =>
        rw [hprice r hrm, hfp]
        have hcond : ¬ (slotKey s = rowKey r) := fun hc => hne hc.symm
        rw [if_neg hcond]
    · subst hre
      rw [rowKey_updateEntry, hke, firstPrice_append_singleton]
      have he2 := hprice e he
      rw [hke] at he2
      cases hfp : firstNonNullPriceForKey processed (slotKey s) with
      | some p =>
        rw [price_updateEntry, he2, hfp]
      | none =>
        rw [price_updateEntry, he2, hfp]
        simp
    · subst hre
      have hkeq : rowKey (updateEntry
          { start_time := s.start_time, end_time := s.end_time,
            price := s.slot_price, slotsByResource := [] } s) = slotKey s := rfl
      rw [hkeq, firstPrice_append_singleton]
      have hnp : slotKey s ∉ processed.map slotKey := fun hc => hnm ((hmem _).mpr hc)
      rw [firstPrice_eq_none_of_not_mem processed _ hnp]
      simp only [if_pos rfl, price_updateEntry]
      cases hp : s.slot_price <;> simp [hp]

/-- The grouping fold establishes the matrix invariant from any invariant
starting point. -/
theorem matrixInv_foldl :
    ∀ (l processed : List ServiceAvailability.SlotWithResource)
      (acc : List ServiceAvailability.SlotMatrixRow),
      MatrixInv processed acc → MatrixInv (processed ++ l) (l.foldl insertSlot acc) := by
  intro l
  induction l with
  | nil =>
    intro processed acc h
    simpa using h
  | cons x xs ih =>
    intro processed acc h
    have h1 := matrixInv_insertSlot (s := x) h
    have h2 := ih (processed ++ [x]) _ h1
    simpa [List.append_assoc] using h2

/-- The grouped (unsorted) rows of `slotMatrix` satisfy the matrix
invariant over the full input. -/
theorem matrixInv_grouped (slots : List ServiceAvailability.SlotWithResource) :
    MatrixInv slots (slots.foldl insertSlot []) := by
  have h := matrixInv_foldl slots [] [] ⟨by simp, by simp, by simp⟩
  simpa using h

end SlotMatrixInvariant

section SlotMatrixClaims

open ServiceAvailability

/-- C1: for every input slot list the slot matrix has exactly one row per
distinct `(start_time, end_time)` pair present in the input — the row keys
are pairwise distinct and a key appears among the rows iff it appears among
the input slots — and the rows are sorted ascending by `start_time`. -/
theorem slotMatrix_one_row_per_key_and_sorted
    (slots : List ServiceAvailability.SlotWithResource) :
    ((slotMatrix slots).map rowKey).Nodup ∧
    (∀ k : Nat × Nat, k ∈ (slotMatrix slots).map rowKey ↔ k ∈ slots.map slotKey) ∧
    (slotMatrix slots).Pairwise (fun a b => a.start_time ≤ b.start_time) := by
  obtain ⟨hnd, hmem, _⟩ := matrixInv_grouped slots
  have hperm : List.Perm (slotMatrix slots) (slots.foldl insertSlot []) :=
    List.perm_insertionSort rowLE (slots.foldl insertSlot [])
  have hpm : List.Perm ((slotMatrix slots).map rowKey)
      ((slots.foldl insertSlot []).map rowKey) :=
    hperm.map rowKey
  refine ⟨hpm.nodup_iff.mpr hnd, ?_, ?_⟩
  · intro k
    rw [hpm.mem_iff]
    exact hmem k
  · exact List.sorted_insertionSort rowLE (slots.foldl insertSlot [])

/-- C2: the price of every row of the slot matrix is the price of the first
slot in input iteration order with that row's key whose price is non-null
(`none` when no such slot exists); later differing prices for the same key
do not change the row price. -/
theorem slotMatrix_row_price_first_nonnull
    (slots : List ServiceAvailability.SlotWithResource)
    (r : ServiceAvailability.SlotMatrixRow) (h : r ∈ slotMatrix slots) :
    r.price = firstNonNullPriceForKey slots (rowKey r) := by
  obtain ⟨_, _, hprice⟩ := matrixInv_grouped slots
  exact hprice r ((List.mem_insertionSort rowLE).mp h)

/-- Witness for C2: in `demoSlots` the 9–10 row's price is 20, the price of
the second slot — the first one with that key whose price is non-null. -/
theorem slotMatrix_row_price_first_nonnull_witness :
    demoRow ∈ slotMatrix demoSlots ∧
    demoRow.price = firstNonNullPriceForKey demoSlots (rowKey demoRow) :=
  ⟨by decide, slotMatrix_row_price_first_nonnull demoSlots demoRow (by decide)⟩

end SlotMatrixClaims

section PaymentDedup

open PaymentUtils

/-- The dedup key comparison is reflexive. -/
theorem sameMethodKey_refl (y : ServicePaymentMethod) : sameMethodKey y y = true := by
  simp [sameMethodKey]

/-- Records with equal keys are interchangeable on the right of the key
comparison. -/
theorem sameMethodKey_congr {z y : ServicePaymentMethod}
    (h : sameMethodKey z y = true) (m : ServicePaymentMethod) :
    sameMethodKey m z = sameMethodKey m y := by
  unfold sameMethodKey at h ⊢
  rw [Bool.and_eq_true] at h
  obtain ⟨h₁, h₂⟩ := h
  rw [beq_iff_eq] at h₁ h₂
  rw [h₁, h₂]

/-- Every index paired by `enumFrom n` is at least `n`. -/
theorem fst_le_of_mem_enumFrom {α : Type} :
    ∀ {n : Nat} {l : List α} {p : Nat × α}, p ∈ l.enumFrom n → n ≤ p.1 := by
  intro n l
  induction l generalizing n with
  | nil => intro p hp; simp [List.enumFrom] at hp
  | cons x xs ih =>
    intro p hp
    rcases List.mem_cons.mp hp with h | h
    · rw [h]
    · exact Nat.le_of_succ_le (ih h)

/-- The indices produced by `enumFrom` are strictly increasing. -/
theorem pairwise_fst_lt_enumFrom {α : Type} :
    ∀ (n : Nat) (l : List α), (l.enumFrom n).Pairwise (fun p q => p.1 < q.1) := by
  intro n l
  induction l generalizing n with
  | nil => simp [List.enumFrom]
  | cons x xs ih =>
    refine List.Pairwise.cons ?_ (ih (n + 1))
    intro q hq
    exact Nat.lt_of_succ_le (fst_le_of_mem_enumFrom hq)

/-- When `findIdx` lands on a valid index, `find?` returns the element
there. -/
theorem find?_eq_some_of_findIdx {α : Type} (p : α → Bool) :
    ∀ (l : List α) (i : Nat) (hi : i < l.length), l.findIdx p = i →
      l.find? p = some (l.get ⟨i, hi⟩) := by
  intro l
  induction l with
  | nil => intro i hi; simp at hi
  | cons x xs ih =>
    intro i hi h
    by_cases hpx : p x
    · rw [List.findIdx_cons, hpx, cond_true] at h
      subst h
      simp [List.find?_cons_of_pos _ hpx]
    · rw [Bool.not_eq_true] at hpx
      rw [List.findIdx_cons, hpx, cond_false] at h
      cases i with
      | zero => exact absurd h (Nat.succ_ne_zero _)
      | succ j =>
        have hj : xs.findIdx p = j := Nat.succ_injective h
        have hjl : j < xs.length := Nat.lt_of_succ_lt_succ hi
        rw [List.find?_cons_of_neg _ (by simp [hpx])]
        rw [ih j hjl hj]
        rfl

/-- A valid index/element pair is a member of `enum`. -/
theorem mem_enum_of_getElem {α : Type} {l : List α} {i : Nat} (hi : i < l.length) :
    (i, l.get ⟨i, hi⟩) ∈ l.enum := by
  apply List.mem_iff_getElem.mpr
  refine ⟨i, by simpa using hi, ?_⟩
  simp [List.enum_eq_enumFrom, List.getElem_enumFrom]

/-- Conversely, every member of `enum` is a valid index/element pair. -/
theorem of_mem_enum {α : Type} {l : List α} {p : Nat × α} (hp : p ∈ l.enum) :
    ∃ hi : p.1 < l.length, l.get ⟨p.1, hi⟩ = p.2 := by
  obtain ⟨pi, pa⟩ := p
  obtain ⟨j, hj, hget⟩ := List.mem_iff_getElem.mp hp
  simp only [List.enum_eq_enumFrom, List.getElem_enumFrom] at hget
  have hjl : j < l.length := by simpa [List.enum_eq_enumFrom] using hj
  have hj1 : pi = j := by
    have := congrArg Prod.fst hget
    simpa using this.symm
  subst hj1
  have hj2 : l.get ⟨pi, hjl⟩ = pa := by
    have := congrArg Prod.snd hget
    simpa using this
  exact ⟨hjl, hj2⟩

end PaymentDedup

section PaymentDedupClaim

open PaymentUtils

/-- C10: the dedup step of `fetchServicePaymentMethods` returns exactly the
first occurrence, in fetch order, of each distinct
`(method_type, account_number)` pair: the result is a sublist of the input
(so the relative order of kept entries is preserved), no two kept entries
agree on both fields, every kept entry is the first input element carrying
its key, and every key present in the input is represented. -/
theorem uniqueMethods_first_occurrences (l : List ServicePaymentMethod) :
    List.Sublist (uniqueMethods l) l ∧
    (uniqueMethods l).Pairwise (fun a b => sameMethodKey a b = false) ∧
    (∀ z ∈ uniqueMethods l, l.find? (fun m => sameMethodKey m z) = some z) ∧
    (∀ y ∈ l, ∃ z ∈ uniqueMethods l, sameMethodKey z y = true) := by
  refine ⟨?_, ?_, ?_, ?_⟩
  · unfold uniqueMethods
    have hs := (@List.filter_sublist _
      (fun p => l.findIdx (fun m => sameMethodKey m p.2) == p.1) l.enum).map Prod.snd
    have hrw : l.enum.map Prod.snd = l := List.enumFrom_map_snd 0 l
    rw [hrw] at hs
    exact hs
  · unfold uniqueMethods
    rw [List.pairwise_map]
    have hpw : (l.enum.filter
        (fun p => l.findIdx (fun m => sameMethodKey m p.2) == p.1)).Pairwise
        (fun p q => p.1 < q.1) :=
      List.Pairwise.filter _ (pairwise_fst_lt_enumFrom 0 l)
    refine List.Pairwise.imp_of_mem ?_ hpw
    intro a b ha hb hlt
    by_contra hck
    rw [Bool.not_eq_false] at hck
    obtain ⟨hae, hPa⟩ := List.mem_filter.mp ha
    obtain ⟨hbe, hPb⟩ := List.mem_filter.mp hb
    simp only [beq_iff_eq] at hPa hPb
    have hcongr : (fun m => sameMethodKey m a.2) = (fun m => sameMethodKey m b.2) :=
      funext (fun m => sameMethodKey_congr hck m)
    have heq : a.1 = b.1 := by rw [← hPa, ← hPb, hcongr]
    rw [heq] at hlt
    exact Nat.lt_irrefl _ hlt
  · intro z hz
    unfold uniqueMethods at hz
    obtain ⟨p, hpf, hpz⟩ := List.mem_map.mp hz
    obtain ⟨hpe, hP⟩ := List.mem_filter.mp hpf
    obtain ⟨hi, hget⟩ := of_mem_enum hpe
    simp only [beq_iff_eq] at hP
    subst hpz
    have hfind := find?_eq_some_of_findIdx (fun m => sameMethodKey m p.2) l p.1 hi hP
    rw [hget] at hfind
    exact hfind
  · intro y hy
    have hex : ∃ x ∈ l, (fun m => sameMethodKey m y) x = true :=
      ⟨y, hy, sameMethodKey_refl y⟩
    have hlt : l.findIdx (fun m => sameMethodKey m y) < l.length :=
      List.findIdx_lt_length_of_exists hex
    have hkz : sameMethodKey (l.get ⟨l.findIdx (fun m => sameMethodKey m y), hlt⟩) y = true := by
      have h := @List.findIdx_getElem _ (fun m => sameMethodKey m y) l hlt
      simpa using h
    refine ⟨l.get ⟨l.findIdx (fun m => sameMethodKey m y), hlt⟩, ?_, hkz⟩
    unfold uniqueMethods
    apply List.mem_map.mpr
    refine ⟨(l.findIdx (fun m => sameMethodKey m y),
             l.get ⟨l.findIdx (fun m => sameMethodKey m y), hlt⟩), ?_, rfl⟩
    apply List.mem_filter.mpr
    refine ⟨mem_enum_of_getElem hlt, ?_⟩
    have hcongr :
        (fun m => sameMethodKey m (l.get ⟨l.findIdx (fun m => sameMethodKey m y), hlt⟩))
          = (fun m => sameMethodKey m y) :=
      funext (fun m => sameMethodKey_congr hkz m)
    rw [hcongr]
    simp

end PaymentDedupClaim
